import Mathlib

/-!
# Producer / consumer coordination of `main.cpp`

Shallow embedding of the globals of `src/main.cpp` and of the two thread bodies
`worker_thread` and `consumer_thread`.

* `worker_thread` holds `smtx` from line 43 to line 60, so the whole `for` loop
  of one producer is a single transition of the shared state.
* One pass through the `while(true)` body of `consumer_thread` is a single
  transition as well.  The check of line 72 runs under the lock.  `wait_for`
  with the predicate "`data_vector` is not empty" returns `true` with the lock
  held and the vector non-empty (the pop of lines 76-77 follows under the same
  lock), or returns `false` with the vector still empty and nothing changed.
  A pass is therefore placed at the moment of its pop, and a pass without a
  pop at the moment of its check in line 72.
* The values written to `tcout` by line 57 (`-->`) and line 76 (`<--`) are kept
  as the two logs `produced` and `consumed`.

`index_thread` is an `unsigned short`, so `index_thread * 100 + i` stays below
`2 ^ 31` and the `int` arithmetic of line 55 never wraps; naturals are used.
-/

namespace MT

/-- The shared globals `data_vector`, `MAX_production`, `production_stopped`
together with the logs of the values reported on `tcout`. -/
@[ext]
structure State where
  data_vector : List Nat
  MAX_production : Nat
  production_stopped : Bool
  produced : List Nat
  consumed : List Nat
  deriving DecidableEq, Repr

/-- The globals as initialised in lines 15, 21 and 22. -/
def init : State :=
  { data_vector := [], MAX_production := 0, production_stopped := false,
    produced := [], consumed := [] }

/-- The `else` branch of lines 55-57: `push_back` of the value, one more on the
counter, and the value reported on `tcout`. -/
def push_item (x : Nat) (s : State) : State :=
  { s with
    data_vector := s.data_vector ++ [x]
    MAX_production := s.MAX_production + 1
    produced := s.produced ++ [x] }

/-- The `for` loop of lines 45-59.  The first argument counts the passes that
remain (`index_thread + 1 - i`), the second is the loop variable `i`. -/
def worker_loop (index_thread : Nat) : Nat → Nat → State → State
  | 0, _, s => s
  | fuel + 1, i, s =>
    if 8 ≤ s.MAX_production then
      { s with production_stopped := true }
    else
      worker_loop index_thread fuel (i + 1) (push_item (index_thread * 100 + i) s)

/-- The locked section of `worker_thread` (lines 43-60). -/
def worker_thread (index_thread : Nat) (s : State) : State :=
  worker_loop index_thread (index_thread + 1) 0 s

/-- What one pass through the body of the consumer loop did. -/
inductive Outcome where
  | exited : Outcome
  | popped : Nat → Outcome
  | timed_out : Outcome
  deriving DecidableEq, Repr

/-- One pass through the `while(true)` body of `consumer_thread` (lines 70-82):
`break` when the flag is set and the vector is empty, otherwise `back()` and
`pop_back()` when the vector is not empty, otherwise the wait times out. -/
def consumer_iteration (s : State) : Outcome × State :=
  if s.production_stopped && s.data_vector.isEmpty then
    (Outcome.exited, s)
  else
    match s.data_vector.getLast? with
    | some v =>
      (Outcome.popped v,
        { s with data_vector := s.data_vector.dropLast, consumed := s.consumed ++ [v] })
    | none => (Outcome.timed_out, s)

/-- A scheduling decision: the batch of producer `index_thread`, or one pass of
the loop of consumer `index_thread`. -/
inductive Action where
  | worker : Nat → Action
  | consumer : Nat → Action
  deriving DecidableEq, Repr

/-- Effect of one scheduling decision on the shared state. -/
def step (s : State) : Action → State
  | Action.worker i => worker_thread i s
  | Action.consumer _ => (consumer_iteration s).2

/-- Effect of a schedule, left to right. -/
def run (s : State) (sched : List Action) : State :=
  sched.foldl step s

/-- The producer indices of a schedule, in the order their batches run. -/
def workers : List Action → List Nat
  | [] => []
  | Action.worker i :: rest => i :: workers rest
  | Action.consumer _ :: rest => workers rest

/-- Sum of the quotas `index + 1` of a list of producers. -/
def quota_sum (idxs : List Nat) : Nat :=
  (idxs.map (fun i => i + 1)).sum

/-- The values `index_thread * 100 + i`, for `k` consecutive `i` from `i0`. -/
def batch_values (index_thread i0 k : Nat) : List Nat :=
  (List.range' i0 k).map (fun j => index_thread * 100 + j)

/-- The shared state together with the indices of the consumer threads that
have left their `while(true)` loop through the `break` of line 72. -/
structure Sys where
  shared : State
  done : List Nat
  deriving DecidableEq, Repr

/-- One pass of the loop of consumer thread `j`; `none` when that thread has
already left its loop and so has no pass to take. -/
def consumer_thread_step (j : Nat) (y : Sys) : Option Sys :=
  if j ∈ y.done then none
  else
    some
      { shared := (consumer_iteration y.shared).2
        done := if (consumer_iteration y.shared).1 = Outcome.exited then j :: y.done else y.done }

/-- A sequence of consumer passes, each by the thread named; `none` when a
thread that has left its loop is asked for another pass. -/
def consumer_run (y : Sys) : List Nat → Option Sys
  | [] => some y
  | j :: js =>
    match consumer_thread_step j y with
    | none => none
    | some y' => consumer_run y' js

/-- How many of the consumer threads `0 .. M-1` are still in their loop. -/
def running (M : Nat) (done : List Nat) : Nat :=
  (Finset.range M \ done.toFinset).card

/-- What holds of the shared state after every schedule from `init`. -/
structure Inv (s : State) : Prop where
  le : s.MAX_production ≤ 8
  len : s.produced.length = s.MAX_production
  stop : s.production_stopped = true → s.MAX_production = 8
  perm : s.produced.Perm (s.consumed ++ s.data_vector)

/-- The constant `number_of_workers` of `main` (line 94). -/
def number_of_workers : Nat := 4

/-- The constant `number_of_consumers` of `main` (line 95). -/
def number_of_consumers : Nat := 3

/-- The indices `main` hands to its producer threads (lines 99-100). -/
def main_workers : List Nat := List.range number_of_workers

/-- The ten values the producers `0, 1, 2, 3` can push. -/
def default_values : List Nat :=
  [0, 100, 101, 200, 201, 202, 300, 301, 302, 303]

/-- The values of a log that producer `i` pushed (those in `i*100 .. i*100+99`). -/
def values_of (i : Nat) (log : List Nat) : List Nat :=
  log.filter (fun v => decide (v / 100 = i))

/-! ## The producer loop in closed form -/

theorem worker_loop_closed (index_thread : Nat) (fuel i : Nat) (s : State) :
    worker_loop index_thread fuel i s =
      { data_vector := s.data_vector ++ batch_values index_thread i (min fuel (8 - s.MAX_production))
        MAX_production := s.MAX_production + min fuel (8 - s.MAX_production)
        production_stopped :=
          s.production_stopped || decide (min fuel (8 - s.MAX_production) < fuel)
        produced := s.produced ++ batch_values index_thread i (min fuel (8 - s.MAX_production))
        consumed := s.consumed } := by
  induction fuel generalizing i s with
  | zero => simp [worker_loop, batch_values]
  | succ n ih =>
    unfold worker_loop
    by_cases h : 8 ≤ s.MAX_production
    · have h0 : 8 - s.MAX_production = 0 := by omega
      simp [h, h0, batch_values]
    · rw [if_neg h, ih]
      have h1 : min (n + 1) (8 - s.MAX_production)
          = min n (8 - (s.MAX_production + 1)) + 1 := by omega
      have h2 : (decide (min n (8 - (s.MAX_production + 1)) < n))
          = decide (min (n + 1) (8 - s.MAX_production) < n + 1) := by
        rw [h1]; simp
      ext1
      · simp [push_item, h1, batch_values, List.range'_succ]
      · simp only [push_item, h1]; omega
      · simp only [push_item, h2]
      · simp [push_item, h1, batch_values, List.range'_succ]
      · rfl

theorem worker_thread_closed (index_thread : Nat) (s : State) :
    worker_thread index_thread s =
      { data_vector :=
          s.data_vector ++ batch_values index_thread 0 (min (index_thread + 1) (8 - s.MAX_production))
        MAX_production := s.MAX_production + min (index_thread + 1) (8 - s.MAX_production)
        production_stopped :=
          s.production_stopped ||
            decide (min (index_thread + 1) (8 - s.MAX_production) < index_thread + 1)
        produced :=
          s.produced ++ batch_values index_thread 0 (min (index_thread + 1) (8 - s.MAX_production))
        consumed := s.consumed } :=
  worker_loop_closed index_thread (index_thread + 1) 0 s

theorem worker_thread_MAX (i : Nat) (s : State) :
    (worker_thread i s).MAX_production = s.MAX_production + min (i + 1) (8 - s.MAX_production) := by
  rw [worker_thread_closed]

theorem worker_thread_MAX_of_le (i : Nat) (s : State) (h : s.MAX_production ≤ 8) :
    (worker_thread i s).MAX_production = min 8 (s.MAX_production + (i + 1)) := by
  rw [worker_thread_MAX]; omega

theorem worker_thread_stopped (i : Nat) (s : State) :
    (worker_thread i s).production_stopped =
      (s.production_stopped || decide (min (i + 1) (8 - s.MAX_production) < i + 1)) := by
  rw [worker_thread_closed]

theorem worker_thread_produced (i : Nat) (s : State) :
    (worker_thread i s).produced =
      s.produced ++ batch_values i 0 (min (i + 1) (8 - s.MAX_production)) := by
  rw [worker_thread_closed]

theorem worker_thread_data (i : Nat) (s : State) :
    (worker_thread i s).data_vector =
      s.data_vector ++ batch_values i 0 (min (i + 1) (8 - s.MAX_production)) := by
  rw [worker_thread_closed]

theorem worker_thread_consumed (i : Nat) (s : State) :
    (worker_thread i s).consumed = s.consumed := by
  rw [worker_thread_closed]

theorem batch_values_length (i i0 k : Nat) : (batch_values i i0 k).length = k := by
  simp [batch_values]

/-- For an `unsigned short` index the values of a batch fit in an `int`. -/
theorem batch_values_lt (i i0 k : Nat) (hi : i < 65536) (hk : i0 + k ≤ 65536) :
    ∀ v ∈ batch_values i i0 k, v < 2 ^ 31 := by
  intro v hv
  simp only [batch_values, List.mem_map, List.mem_range'_1] at hv
  obtain ⟨j, ⟨_, hj⟩, rfl⟩ := hv
  omega

/-! ## The consumer pass, field by field -/

theorem consumer_iteration_MAX (s : State) :
    (consumer_iteration s).2.MAX_production = s.MAX_production := by
  unfold consumer_iteration
  split
  · rfl
  · split <;> rfl

theorem consumer_iteration_stopped (s : State) :
    (consumer_iteration s).2.production_stopped = s.production_stopped := by
  unfold consumer_iteration
  split
  · rfl
  · split <;> rfl

theorem consumer_iteration_produced (s : State) :
    (consumer_iteration s).2.produced = s.produced := by
  unfold consumer_iteration
  split
  · rfl
  · split <;> rfl

theorem consumer_iteration_exited_iff (s : State) :
    (consumer_iteration s).1 = Outcome.exited ↔
      s.production_stopped = true ∧ s.data_vector = [] := by
  unfold consumer_iteration
  split
  · rename_i h
    simpa using h
  · rename_i h
    have h' : ¬ (s.production_stopped = true ∧ s.data_vector = []) := by simpa using h
    split <;> simp [h']

theorem consumer_iteration_of_ne_nil (s : State) (h : s.data_vector ≠ []) :
    consumer_iteration s =
      (Outcome.popped (s.data_vector.getLast h),
        { s with
          data_vector := s.data_vector.dropLast
          consumed := s.consumed ++ [s.data_vector.getLast h] }) := by
  unfold consumer_iteration
  have h1 : (s.production_stopped && s.data_vector.isEmpty) = false := by
    cases hd : s.data_vector with
    | nil => exact absurd hd h
    | cons a l => simp
  rw [h1]
  simp [List.getLast?_eq_getLast _ h]

theorem consumer_iteration_of_nil (s : State) (h : s.data_vector = []) :
    consumer_iteration s =
      (if s.production_stopped then Outcome.exited else Outcome.timed_out, s) := by
  unfold consumer_iteration
  cases hp : s.production_stopped <;> simp [h]

/-! ## Schedules -/

theorem run_nil (s : State) : run s [] = s := rfl

theorem run_cons (s : State) (a : Action) (sched : List Action) :
    run s (a :: sched) = run (step s a) sched := rfl

theorem run_append (s : State) (p q : List Action) :
    run s (p ++ q) = run (run s p) q := by
  simp [run, List.foldl_append]

theorem workers_append (p q : List Action) : workers (p ++ q) = workers p ++ workers q := by
  induction p with
  | nil => rfl
  | cons a p ih => cases a <;> simp [workers, ih]

theorem workers_map_worker (l : List Nat) : workers (l.map Action.worker) = l := by
  induction l with
  | nil => rfl
  | cons a l ih => simp [workers, ih]

theorem quota_sum_nil : quota_sum [] = 0 := rfl

theorem quota_sum_cons (i : Nat) (l : List Nat) : quota_sum (i :: l) = (i + 1) + quota_sum l := by
  simp [quota_sum]

theorem quota_sum_perm {l l' : List Nat} (h : l.Perm l') : quota_sum l = quota_sum l' :=
  (h.map _).sum_eq

theorem quota_sum_sublist {l l' : List Nat} (h : l.Sublist l') : quota_sum l ≤ quota_sum l' := by
  induction h with
  | slnil => exact le_refl _
  | cons a _ ih => rw [quota_sum_cons]; omega
  | cons₂ a _ ih => rw [quota_sum_cons, quota_sum_cons]; omega

theorem quota_sum_subperm {l l' : List Nat} (h : l.Subperm l') : quota_sum l ≤ quota_sum l' := by
  obtain ⟨m, hm, hs⟩ := h
  rw [← quota_sum_perm hm]
  exact quota_sum_sublist hs

theorem step_MAX_le (s : State) (a : Action) (h : s.MAX_production ≤ 8) :
    (step s a).MAX_production ≤ 8 := by
  cases a with
  | worker i => simp only [step]; rw [worker_thread_MAX]; omega
  | consumer j => simp only [step]; rw [consumer_iteration_MAX]; exact h

/-- The counter after a schedule, from any state that respects the cap. -/
theorem run_MAX (sched : List Action) (s : State) (h : s.MAX_production ≤ 8) :
    (run s sched).MAX_production = min 8 (s.MAX_production + quota_sum (workers sched)) := by
  induction sched generalizing s with
  | nil => simp [run_nil, workers, quota_sum_nil]; exact h
  | cons a sched ih =>
    rw [run_cons, ih _ (step_MAX_le s a h)]
    cases a with
    | worker i =>
      simp only [step, workers, quota_sum_cons]
      rw [worker_thread_MAX]; omega
    | consumer j =>
      simp only [step, workers]
      rw [consumer_iteration_MAX]

/-! ## The invariant of the shared state -/

theorem Inv_init : Inv init :=
  { le := Nat.zero_le _
    len := rfl
    stop := fun h => Bool.noConfusion h
    perm := List.Perm.refl _ }

theorem Inv_worker (i : Nat) (s : State) (h : Inv s) : Inv (worker_thread i s) := by
  have hle := h.le
  refine { le := ?_, len := ?_, stop := ?_, perm := ?_ }
  · rw [worker_thread_MAX]; omega
  · rw [worker_thread_produced, worker_thread_MAX, List.length_append, batch_values_length, h.len]
  · intro hs
    rw [worker_thread_stopped] at hs
    rw [worker_thread_MAX]
    rcases Bool.or_eq_true _ _ |>.mp hs with h1 | h1
    · have := h.stop h1; omega
    · have h2 := of_decide_eq_true h1; omega
  · rw [worker_thread_produced, worker_thread_consumed, worker_thread_data, ← List.append_assoc]
    exact h.perm.append_right _

theorem Inv_consumer (s : State) (h : Inv s) : Inv (consumer_iteration s).2 := by
  by_cases hd : s.data_vector = []
  · rw [consumer_iteration_of_nil s hd]; exact h
  · rw [consumer_iteration_of_ne_nil s hd]
    refine { le := h.le, len := h.len, stop := h.stop, perm := ?_ }
    show s.produced.Perm ((s.consumed ++ [s.data_vector.getLast hd]) ++ s.data_vector.dropLast)
    have e : s.data_vector = s.data_vector.dropLast ++ [s.data_vector.getLast hd] :=
      (List.dropLast_append_getLast hd).symm
    have p1 : s.produced.Perm (s.consumed ++ (s.data_vector.dropLast ++ [s.data_vector.getLast hd])) := by
      rw [← e]; exact h.perm
    refine p1.trans ?_
    rw [List.append_assoc]
    exact List.Perm.append_left _ List.perm_append_comm

theorem Inv_step (s : State) (a : Action) (h : Inv s) : Inv (step s a) := by
  cases a with
  | worker i => exact Inv_worker i s h
  | consumer j => exact Inv_consumer s h

theorem Inv_run (sched : List Action) (s : State) (h : Inv s) : Inv (run s sched) := by
  induction sched generalizing s with
  | nil => exact h
  | cons a sched ih => exact ih _ (Inv_step s a h)

/-! ## Monotonicity of the flag, and states a consumer has left -/

theorem step_stopped_mono (s : State) (a : Action) (h : s.production_stopped = true) :
    (step s a).production_stopped = true := by
  cases a with
  | worker i => simp only [step]; rw [worker_thread_stopped, h]; rfl
  | consumer j => simp only [step]; rw [consumer_iteration_stopped]; exact h

theorem run_stopped_mono (sched : List Action) (s : State) (h : s.production_stopped = true) :
    (run s sched).production_stopped = true := by
  induction sched generalizing s with
  | nil => exact h
  | cons a sched ih => exact ih _ (step_stopped_mono s a h)

theorem worker_thread_of_full (i : Nat) (s : State) (h : s.MAX_production = 8) :
    worker_thread i s = { s with production_stopped := true } := by
  rw [worker_thread_closed]
  have h0 : min (i + 1) (8 - s.MAX_production) = 0 := by omega
  rw [h0]
  ext1 <;> simp [batch_values]

theorem step_of_drained (s : State) (a : Action) (hf : s.production_stopped = true)
    (hm : s.MAX_production = 8) (hd : s.data_vector = []) : step s a = s := by
  cases a with
  | worker i =>
    simp only [step]
    rw [worker_thread_of_full i s hm]
    ext1 <;> simp [hf]
  | consumer j =>
    simp only [step]
    rw [consumer_iteration_of_nil s hd]

theorem run_of_drained (sched : List Action) (s : State) (hf : s.production_stopped = true)
    (hm : s.MAX_production = 8) (hd : s.data_vector = []) : run s sched = s := by
  induction sched with
  | nil => rfl
  | cons a sched ih => rw [run_cons, step_of_drained s a hf hm hd]; exact ih

/-! ## Claims -/

/-- C1 (cap invariant): for every list `idxs` of producer indices and every
schedule that runs their batches once each in some order, with consumer passes
interleaved anywhere, the final production counter equals the number of values
ever pushed and equals `min 8 (sum of (index + 1))`; for the producers
`0, 1, 2, 3` it is exactly `8`. -/
theorem cap_invariant (idxs : List Nat) (sched : List Action)
    (h : (workers sched).Perm idxs) :
    (run init sched).MAX_production = (run init sched).produced.length ∧
    (run init sched).MAX_production = min 8 (quota_sum idxs) ∧
    (idxs = [0, 1, 2, 3] → (run init sched).MAX_production = 8) := by
  have hmax : (run init sched).MAX_production = min 8 (quota_sum idxs) := by
    rw [run_MAX sched init (Nat.zero_le _), quota_sum_perm h]
    simp [init]
  refine ⟨((Inv_run sched init Inv_init).len).symm, hmax, ?_⟩
  intro hd
  rw [hmax, hd]
  rfl

/-- C2 (no loss, no duplication): after every schedule of producer batches and
consumer passes from `init`, the multiset of values pushed so far is the
multiset of values popped so far plus the multiset of values in the vector; so
whenever the vector is empty, and in particular whenever a consumer pass takes
the exit branch, the consumed multiset equals the produced multiset. -/
theorem no_loss_no_duplication (sched : List Action) :
    (Multiset.ofList (run init sched).produced =
      Multiset.ofList (run init sched).consumed +
        Multiset.ofList (run init sched).data_vector) ∧
    ((run init sched).data_vector = [] →
      Multiset.ofList (run init sched).consumed = Multiset.ofList (run init sched).produced) ∧
    ((consumer_iteration (run init sched)).1 = Outcome.exited →
      Multiset.ofList (run init sched).consumed = Multiset.ofList (run init sched).produced) := by
  have hp := (Inv_run sched init Inv_init).perm
  have hempty : (run init sched).data_vector = [] →
      Multiset.ofList (run init sched).consumed = Multiset.ofList (run init sched).produced := by
    intro hd
    rw [hd, List.append_nil] at hp
    exact (Multiset.coe_eq_coe.mpr hp).symm
  refine ⟨?_, hempty, ?_⟩
  · rw [Multiset.coe_add]
    exact Multiset.coe_eq_coe.mpr hp
  · intro he
    exact hempty ((consumer_iteration_exited_iff _).mp he).2

/-- C3 (a consumer exit never strands an item): if a consumer pass takes the
exit branch in the state reached by `sched`, then the vector is empty there and
after every further schedule `later` of producer batches and consumer passes
the flag is still set, the vector is still empty and nothing more has been
pushed; and in any state at all, a pass with a non-empty vector does not take
the exit branch. -/
theorem exit_never_strands (sched later : List Action)
    (h : (consumer_iteration (run init sched)).1 = Outcome.exited) :
    (run init sched).data_vector = [] ∧
    (run (run init sched) later).production_stopped = true ∧
    (run (run init sched) later).data_vector = [] ∧
    (run (run init sched) later).produced = (run init sched).produced ∧
    (∀ s : State, s.data_vector ≠ [] → (consumer_iteration s).1 ≠ Outcome.exited) := by
  obtain ⟨hf, hd⟩ := (consumer_iteration_exited_iff _).mp h
  have hm := (Inv_run sched init Inv_init).stop hf
  rw [run_of_drained later _ hf hm hd]
  refine ⟨hd, hf, hd, rfl, ?_⟩
  intro s hs he
  exact hs ((consumer_iteration_exited_iff s).mp he).2

/-- C6 (no premature drain): after every schedule from `init`, if the flag is
set then the counter has reached the cap `8` or the sum of the quotas of the
producers that ran; so a consumer pass that sees the flag set and the vector
empty (the exit branch) does so only in such a state.  The counter is in fact
`8` whenever the flag is set. -/
theorem no_premature_drain (sched : List Action) :
    ((run init sched).production_stopped = true →
      (8 ≤ (run init sched).MAX_production ∨
        (run init sched).MAX_production = quota_sum (workers sched))) ∧
    ((consumer_iteration (run init sched)).1 = Outcome.exited →
      (8 ≤ (run init sched).MAX_production ∨
        (run init sched).MAX_production = quota_sum (workers sched))) ∧
    ((run init sched).production_stopped = true → (run init sched).MAX_production = 8) := by
  have hstop := (Inv_run sched init Inv_init).stop
  have key : (run init sched).production_stopped = true →
      (8 ≤ (run init sched).MAX_production ∨
        (run init sched).MAX_production = quota_sum (workers sched)) := by
    intro hf
    exact Or.inl (le_of_eq (hstop hf).symm)
  exact ⟨key, fun he => key ((consumer_iteration_exited_iff _).mp he).1, hstop⟩

/-! ## Popping repeatedly -/

theorem consumer_iteration_concat (s : State) (below : List Nat) (x : Nat)
    (h : s.data_vector = below ++ [x]) :
    consumer_iteration s =
      (Outcome.popped x, { s with data_vector := below, consumed := s.consumed ++ [x] }) := by
  have hne : s.data_vector ≠ [] := by rw [h]; simp
  rw [consumer_iteration_of_ne_nil s hne]
  have h1 : s.data_vector.getLast hne = x := by
    simp [h]
  have h2 : s.data_vector.dropLast = below := by
    simp [h]
  rw [h1, h2]

theorem run_pops (top : List Nat) :
    ∀ (s : State) (below : List Nat), s.data_vector = below ++ top →
      run s (List.replicate top.length (Action.consumer 0)) =
        { s with data_vector := below, consumed := s.consumed ++ top.reverse } := by
  induction top using List.reverseRecOn with
  | nil =>
    intro s below h
    simp only [List.length_nil, List.replicate_zero, run_nil, List.reverse_nil, List.append_nil]
    rw [List.append_nil] at h
    ext1 <;> simp [h]
  | append_singleton t x ih =>
    intro s below h
    rw [List.length_append, List.length_singleton, List.replicate_succ, run_cons]
    simp only [step]
    rw [consumer_iteration_concat s (below ++ t) x (by rw [h, List.append_assoc])]
    rw [ih _ below rfl]
    ext1 <;> simp

/-- C5 (LIFO): with a non-empty vector a consumer pass pops, returns the last
element of the vector (the most recently pushed of those still in it) and
leaves the elements below it in place; a push of `x` followed at once by a
pass returns `x` and restores the vector; and `n` passes in a row remove the
top `n` elements and report them in the reverse of the order in which they
were pushed, so of two elements in the vector the one pushed later is popped
first. -/
theorem lifo_pop (s : State) (h : s.data_vector ≠ []) :
    (consumer_iteration s).1 = Outcome.popped (s.data_vector.getLast h) ∧
    (consumer_iteration s).2.data_vector ++ [s.data_vector.getLast h] = s.data_vector ∧
    (consumer_iteration s).2.consumed = s.consumed ++ [s.data_vector.getLast h] ∧
    (∀ x : Nat, (consumer_iteration (push_item x s)).1 = Outcome.popped x ∧
      (consumer_iteration (push_item x s)).2.data_vector = s.data_vector) ∧
    (∀ a b : Nat,
      (run (push_item b (push_item a s)) [Action.consumer 0, Action.consumer 1]).consumed
        = s.consumed ++ [b, a]) ∧
    (∀ n : Nat, n ≤ s.data_vector.length →
      (run s (List.replicate n (Action.consumer 0))).data_vector
        = s.data_vector.take (s.data_vector.length - n) ∧
      (run s (List.replicate n (Action.consumer 0))).consumed
        = s.consumed ++ (s.data_vector.drop (s.data_vector.length - n)).reverse) := by
  refine ⟨?_, ?_, ?_, ?_, ?_, ?_⟩
  · rw [consumer_iteration_of_ne_nil s h]
  · rw [consumer_iteration_of_ne_nil s h]
    exact List.dropLast_append_getLast h
  · rw [consumer_iteration_of_ne_nil s h]
  · intro x
    rw [consumer_iteration_concat (push_item x s) s.data_vector x rfl]
    exact ⟨rfl, rfl⟩
  · intro a b
    rw [run_cons, run_cons, run_nil]
    simp only [step]
    rw [consumer_iteration_concat (push_item b (push_item a s)) (s.data_vector ++ [a]) b rfl]
    rw [consumer_iteration_concat _ s.data_vector a rfl]
    simp [push_item]
  · intro n hn
    have hlen : (s.data_vector.drop (s.data_vector.length - n)).length = n := by
      rw [List.length_drop]; omega
    have hrun := run_pops (s.data_vector.drop (s.data_vector.length - n)) s
      (s.data_vector.take (s.data_vector.length - n)) (List.take_append_drop _ _).symm
    rw [hlen] at hrun
    rw [hrun]
    exact ⟨rfl, rfl⟩

/-- C9, as the claim states it, fails: after the batches of producers 3, 2
and 0 the counter is `8` and the flag is still `false`. -/
theorem flag_unset_at_cap :
    (run init [Action.worker 3, Action.worker 2, Action.worker 0]).MAX_production = 8 ∧
    (run init [Action.worker 3, Action.worker 2, Action.worker 0]).production_stopped = false ∧
    ¬ (∀ sched : List Action, (run init sched).MAX_production = 8 →
        (run init sched).production_stopped = true) := by
  refine ⟨by decide, by decide, ?_⟩
  intro hall
  have h := hall [Action.worker 3, Action.worker 2, Action.worker 0] (by decide)
  revert h
  decide

/-- C9 (amended): the flag is set by a denied attempt.  After every schedule
from `init`: if the flag is set the counter is `8`; if the counter is `8`, the
batch of any producer that runs next sets the flag; a set flag stays set over
every step and every further schedule; and the flag of `init` is `false`. -/
theorem flag_set_by_denial (sched : List Action) :
    init.production_stopped = false ∧
    ((run init sched).production_stopped = true → (run init sched).MAX_production = 8) ∧
    (∀ i : Nat, (run init sched).MAX_production = 8 →
      (worker_thread i (run init sched)).production_stopped = true) ∧
    (∀ a : Action, (run init sched).production_stopped = true →
      (step (run init sched) a).production_stopped = true) ∧
    (∀ later : List Action, (run init sched).production_stopped = true →
      (run init (sched ++ later)).production_stopped = true) := by
  refine ⟨rfl, (Inv_run sched init Inv_init).stop, ?_, ?_, ?_⟩
  · intro i hm
    rw [worker_thread_of_full i _ hm]
  · intro a hf
    exact step_stopped_mono _ a hf
  · intro later hf
    rw [run_append]
    exact run_stopped_mono later _ hf

/-! ## Batches that are never denied -/

theorem run_below_cap (sched : List Action) (s : State) (hf : s.production_stopped = false)
    (hq : s.MAX_production + quota_sum (workers sched) ≤ 8) :
    (run s sched).production_stopped = false ∧
    (run s sched).produced
      = s.produced ++ (workers sched).flatMap (fun i => batch_values i 0 (i + 1)) ∧
    (run s sched).MAX_production = s.MAX_production + quota_sum (workers sched) := by
  induction sched generalizing s with
  | nil => simp [run_nil, workers, quota_sum_nil, hf]
  | cons a sched ih =>
    rw [run_cons]
    cases a with
    | worker i =>
      simp only [workers, quota_sum_cons] at hq ⊢
      have hk : min (i + 1) (8 - s.MAX_production) = i + 1 := by omega
      have hf' : (step s (Action.worker i)).production_stopped = false := by
        simp only [step]; rw [worker_thread_stopped, hk, hf]; simp
      have hm' : (step s (Action.worker i)).MAX_production = s.MAX_production + (i + 1) := by
        simp only [step]; rw [worker_thread_MAX, hk]
      have hp' : (step s (Action.worker i)).produced
          = s.produced ++ batch_values i 0 (i + 1) := by
        simp only [step]; rw [worker_thread_produced, hk]
      obtain ⟨h1, h2, h3⟩ := ih _ hf' (by rw [hm']; omega)
      refine ⟨h1, ?_, ?_⟩
      · rw [h2, hp', List.flatMap_cons, List.append_assoc]
      · rw [h3, hm']; omega
    | consumer j =>
      simp only [workers] at hq ⊢
      have hf' : (step s (Action.consumer j)).production_stopped = false := by
        simp only [step]; rw [consumer_iteration_stopped]; exact hf
      have hm' : (step s (Action.consumer j)).MAX_production = s.MAX_production := by
        simp only [step]; rw [consumer_iteration_MAX]
      have hp' : (step s (Action.consumer j)).produced = s.produced := by
        simp only [step]; rw [consumer_iteration_produced]
      obtain ⟨h1, h2, h3⟩ := ih _ hf' (by rw [hm']; exact hq)
      exact ⟨h1, by rw [h2, hp'], by rw [h3, hm']⟩

/-- While no attempt has been denied the counter is the sum of the quotas run. -/
theorem run_unstopped_MAX (sched : List Action) (s : State)
    (hf : (run s sched).production_stopped = false) :
    (run s sched).MAX_production = s.MAX_production + quota_sum (workers sched) := by
  induction sched generalizing s with
  | nil => simp [run_nil, workers, quota_sum_nil]
  | cons a sched ih =>
    rw [run_cons] at hf ⊢
    rw [ih _ hf]
    have hs : (step s a).production_stopped = false := by
      cases hb : (step s a).production_stopped with
      | false => rfl
      | true => rw [run_stopped_mono sched _ hb] at hf; cases hf
    cases a with
    | worker i =>
      simp only [step] at hs ⊢
      rw [worker_thread_stopped] at hs
      have h2 : ¬ (min (i + 1) (8 - s.MAX_production) < i + 1) := by
        intro hlt
        rw [decide_eq_true hlt, Bool.or_true] at hs
        cases hs
      simp only [workers, quota_sum_cons]
      rw [worker_thread_MAX]; omega
    | consumer j =>
      simp only [step, workers]
      rw [consumer_iteration_MAX]

/-- C10 (the flag is set only by a denied attempt): for every collection
`idxs` of producers whose quotas sum to at most `8`, after every schedule in
which some of them have run their batch (each at most once, consumer passes
interleaved) the flag is `false`, a consumer pass does not take the exit
branch, and no attempt has been denied: every producer that ran pushed its
whole sequence `i*100, ..., i*100+i`. -/
theorem no_denial_below_cap (idxs : List Nat) (sched : List Action)
    (hq : quota_sum idxs ≤ 8) (hs : (workers sched).Subperm idxs) :
    (run init sched).production_stopped = false ∧
    (consumer_iteration (run init sched)).1 ≠ Outcome.exited ∧
    (run init sched).produced
      = (workers sched).flatMap (fun i => batch_values i 0 (i + 1)) ∧
    (run init sched).MAX_production = quota_sum (workers sched) := by
  have hle := quota_sum_subperm hs
  obtain ⟨h1, h2, h3⟩ := run_below_cap sched init rfl (by simp only [init]; omega)
  refine ⟨h1, ?_, ?_, ?_⟩
  · intro he
    have := ((consumer_iteration_exited_iff _).mp he).1
    rw [h1] at this
    cases this
  · rw [h2]; rfl
  · rw [h3]; simp [init]

/-! ## Consumer threads -/

theorem running_le (M : Nat) (done : List Nat) : running M done ≤ M := by
  unfold running
  calc (Finset.range M \ done.toFinset).card
      ≤ (Finset.range M).card := Finset.card_le_card Finset.sdiff_subset
    _ = M := Finset.card_range M

theorem running_cons (M j : Nat) (done : List Nat) (hj : j < M) (hd : j ∉ done) :
    running M (j :: done) + 1 = running M done := by
  unfold running
  have hmem : j ∈ Finset.range M \ done.toFinset := by
    simp [Finset.mem_sdiff, hj, hd]
  rw [List.toFinset_cons, Finset.sdiff_insert, Finset.card_erase_of_mem hmem]
  have hpos : 0 < (Finset.range M \ done.toFinset).card := Finset.card_pos.mpr ⟨j, hmem⟩
  omega

theorem running_eq_zero (M : Nat) (done : List Nat) (h : running M done = 0) :
    ∀ j, j < M → j ∈ done := by
  intro j hj
  unfold running at h
  have he : Finset.range M \ done.toFinset = ∅ := Finset.card_eq_zero.mp h
  by_contra hn
  have hmem : j ∈ Finset.range M \ done.toFinset := by
    simp [Finset.mem_sdiff, hj, hn]
  rw [he] at hmem
  exact absurd hmem (Finset.not_mem_empty j)

theorem consumer_thread_step_stopped (j : Nat) (y y' : Sys) (M : Nat) (hj : j < M)
    (hf : y.shared.production_stopped = true) (h : consumer_thread_step j y = some y') :
    y'.shared.production_stopped = true ∧
    (consumer_iteration y.shared).1 ≠ Outcome.timed_out ∧
    1 + (y'.shared.data_vector.length + running M y'.done)
      = y.shared.data_vector.length + running M y.done := by
  unfold consumer_thread_step at h
  by_cases hd : j ∈ y.done
  · rw [if_pos hd] at h; cases h
  · rw [if_neg hd] at h
    have hy := (Option.some.inj h).symm
    subst hy
    by_cases hv : y.shared.data_vector = []
    · have hit : consumer_iteration y.shared = (Outcome.exited, y.shared) := by
        rw [consumer_iteration_of_nil _ hv, hf]; rfl
      rw [hit]
      refine ⟨hf, by simp, ?_⟩
      have := running_cons M j y.done hj hd
      simp only [if_true]
      omega
    · rw [consumer_iteration_of_ne_nil _ hv]
      refine ⟨hf, by simp, ?_⟩
      have hl : 0 < y.shared.data_vector.length := List.length_pos.mpr hv
      simp only [List.length_dropLast]
      have hne : (Outcome.popped (y.shared.data_vector.getLast hv) = Outcome.exited) = False := by
        simp
      simp only [hne, if_false]
      omega

theorem consumer_run_stopped (M : Nat) (js : List Nat) :
    ∀ (y y' : Sys), (∀ j ∈ js, j < M) → y.shared.production_stopped = true →
      consumer_run y js = some y' →
        y'.shared.production_stopped = true ∧
        js.length + (y'.shared.data_vector.length + running M y'.done)
          = y.shared.data_vector.length + running M y.done := by
  induction js with
  | nil =>
    intro y y' _ hf h
    have hy := (Option.some.inj h).symm
    subst hy
    exact ⟨hf, by simp⟩
  | cons j js ih =>
    intro y y' hM hf h
    simp only [consumer_run] at h
    cases hstep : consumer_thread_step j y with
    | none => rw [hstep] at h; cases h
    | some y1 =>
      rw [hstep] at h
      have hj : j < M := hM j (List.mem_cons_self _ _)
      obtain ⟨hf1, _, hm1⟩ := consumer_thread_step_stopped j y y1 M hj hf hstep
      obtain ⟨hf2, hm2⟩ := ih y1 y' (fun k hk => hM k (List.mem_cons_of_mem _ hk)) hf1 h
      refine ⟨hf2, ?_⟩
      rw [List.length_cons]
      omega

/-- C4 (consumers terminate in the default configuration): once the batches of
producers `0, 1, 2, 3` have all run, in any order and with any consumer passes
in between, the flag is set.  From that state on, whatever consumers `done`
have already left and for every sequence `js` of passes by consumers below `M`
that are still in their loop: a further pass never times out (it pops or
exits); every pass lowers "vector size + consumers still running" by exactly
one, so there are at most "vector size + M" passes; when that many have been
taken every consumer below `M` has left its loop; and as long as one has not, it
can take a pass. -/
theorem consumers_terminate (sched : List Action) (h : (workers sched).Perm [0, 1, 2, 3]) :
    (run init sched).production_stopped = true ∧
    ∀ (M : Nat) (done js : List Nat) (y : Sys), (∀ j ∈ js, j < M) →
      consumer_run { shared := run init sched, done := done } js = some y →
        y.shared.production_stopped = true ∧
        (consumer_iteration y.shared).1 ≠ Outcome.timed_out ∧
        js.length + (y.shared.data_vector.length + running M y.done)
          = (run init sched).data_vector.length + running M done ∧
        js.length ≤ (run init sched).data_vector.length + M ∧
        (js.length = (run init sched).data_vector.length + M → ∀ j, j < M → j ∈ y.done) ∧
        (∀ j, j < M → j ∉ y.done → (consumer_thread_step j y).isSome = true) := by
  have hflag : (run init sched).production_stopped = true := by
    cases hb : (run init sched).production_stopped with
    | true => rfl
    | false =>
      have h1 := run_unstopped_MAX sched init hb
      have h2 := (Inv_run sched init Inv_init).le
      rw [quota_sum_perm h] at h1
      have h3 : quota_sum [0, 1, 2, 3] = 10 := by decide
      rw [h1, h3] at h2
      simp only [init] at h2
      omega
  refine ⟨hflag, ?_⟩
  intro M done js y hM hrun
  obtain ⟨hf, hm⟩ := consumer_run_stopped M js _ y hM hflag hrun
  have hle := running_le M done
  refine ⟨hf, ?_, hm, ?_, ?_, ?_⟩
  · intro ht
    by_cases hv : y.shared.data_vector = []
    · rw [consumer_iteration_of_nil _ hv, hf] at ht
      simp at ht
    · rw [consumer_iteration_of_ne_nil _ hv] at ht
      simp at ht
  · simp only at hm
    omega
  · intro hlen
    apply running_eq_zero
    simp only at hm
    omega
  · intro j _ hd
    unfold consumer_thread_step
    rw [if_neg hd]
    rfl

/-! ## The default configuration, order by order -/

theorem main_workers_eq : main_workers = [0, 1, 2, 3] := rfl

theorem quota_sum_main_workers : quota_sum main_workers = 10 := rfl

/-- Counter, flag and log of pushed values do not depend on the consumer passes
of a schedule. -/
theorem run_view (sched : List Action) (s s' : State)
    (hm : s.MAX_production = s'.MAX_production)
    (hf : s.production_stopped = s'.production_stopped)
    (hp : s.produced = s'.produced) :
    (run s sched).MAX_production
      = (run s' ((workers sched).map Action.worker)).MAX_production ∧
    (run s sched).production_stopped
      = (run s' ((workers sched).map Action.worker)).production_stopped ∧
    (run s sched).produced = (run s' ((workers sched).map Action.worker)).produced := by
  induction sched generalizing s s' with
  | nil => exact ⟨hm, hf, hp⟩
  | cons a sched ih =>
    cases a with
    | worker i =>
      simp only [workers, List.map_cons, run_cons, step]
      apply ih
      · rw [worker_thread_MAX, worker_thread_MAX, hm]
      · rw [worker_thread_stopped, worker_thread_stopped, hm, hf]
      · rw [worker_thread_produced, worker_thread_produced, hm, hp]
    | consumer j =>
      simp only [workers, run_cons, step]
      apply ih
      · rw [consumer_iteration_MAX, hm]
      · rw [consumer_iteration_stopped, hf]
      · rw [consumer_iteration_produced, hp]

theorem default_orders_produced :
    ∀ l ∈ List.permutations' [0, 1, 2, 3],
      (run init (l.map Action.worker)).produced.length = 8 ∧
      (run init (l.map Action.worker)).produced.Nodup ∧
      (∀ v ∈ (run init (l.map Action.worker)).produced, v ∈ default_values) ∧
      (∀ i ∈ [0, 1, 2, 3], ∃ k ∈ List.range (i + 2),
        values_of i (run init (l.map Action.worker)).produced = batch_values i 0 k) := by
  decide

theorem default_orders_zero :
    ∀ l ∈ List.permutations' [0, 1, 2, 3],
      (0 ∈ (run init (l.map Action.worker)).produced ↔ l.getLast? ≠ some 0) := by
  decide

/-- C7 (concrete scenario, produced set): when the batches of producers
`0, 1, 2, 3` have all run, in any order and with any consumer passes in
between, exactly `8` values have been pushed, they are pairwise distinct, each
is one of `0, 100, 101, 200, 201, 202, 300, 301, 302, 303`, and the values of
producer `i` are `i*100, i*100+1, ...`, the first `k` of its sequence for some
`k ≤ i + 1`. -/
theorem default_produced_set (sched : List Action)
    (h : (workers sched).Perm [0, 1, 2, 3]) :
    (run init sched).produced.length = 8 ∧
    (run init sched).produced.Nodup ∧
    (∀ v ∈ (run init sched).produced, v ∈ default_values) ∧
    (∀ i ∈ [0, 1, 2, 3], ∃ k, k ≤ i + 1 ∧
      values_of i (run init sched).produced = batch_values i 0 k) := by
  have hp := (run_view sched init init rfl rfl rfl).2.2
  obtain ⟨h1, h2, h3, h4⟩ :=
    default_orders_produced (workers sched) (List.mem_permutations'.mpr h)
  rw [hp]
  refine ⟨h1, h2, h3, ?_⟩
  intro i hi
  obtain ⟨k, hk, he⟩ := h4 i hi
  exact ⟨k, by have := List.mem_range.mp hk; omega, he⟩

/-- C8, as the claim states it, fails: when producer 0 runs its batch after
producers 3, 2 and 1 the counter is already `8`, its only attempt is denied,
and after the consumers have emptied the vector and one has left, the value `0`
is neither among the produced nor among the consumed values. -/
theorem zero_denied_when_last :
    (workers ([Action.worker 3, Action.worker 2, Action.worker 1, Action.worker 0]
      ++ List.replicate 8 (Action.consumer 0))).Perm [0, 1, 2, 3] ∧
    0 ∉ (run init ([Action.worker 3, Action.worker 2, Action.worker 1, Action.worker 0]
      ++ List.replicate 8 (Action.consumer 0))).produced ∧
    0 ∉ (run init ([Action.worker 3, Action.worker 2, Action.worker 1, Action.worker 0]
      ++ List.replicate 8 (Action.consumer 0))).consumed ∧
    (consumer_iteration (run init ([Action.worker 3, Action.worker 2, Action.worker 1,
      Action.worker 0] ++ List.replicate 8 (Action.consumer 0)))).1 = Outcome.exited ∧
    ¬ (∀ sched : List Action, (workers sched).Perm [0, 1, 2, 3] →
        0 ∈ (run init sched).produced) := by
  refine ⟨by decide, by decide, by decide, by decide, ?_⟩
  intro hall
  have h := hall [Action.worker 3, Action.worker 2, Action.worker 1, Action.worker 0]
    (by decide)
  revert h
  decide

/-- C8 (amended): when the batches of producers `0, 1, 2, 3` have all run, the
value `0` has been pushed exactly when producer 0 was not the last of the four
to run; and once the vector is empty, `0` is among the consumed values exactly
in those orders. -/
theorem zero_produced_iff (sched : List Action)
    (h : (workers sched).Perm [0, 1, 2, 3]) :
    (0 ∈ (run init sched).produced ↔ (workers sched).getLast? ≠ some 0) ∧
    ((run init sched).data_vector = [] →
      (0 ∈ (run init sched).consumed ↔ (workers sched).getLast? ≠ some 0)) := by
  have hp := (run_view sched init init rfl rfl rfl).2.2
  have h0 := default_orders_zero (workers sched) (List.mem_permutations'.mpr h)
  rw [← hp] at h0
  refine ⟨h0, ?_⟩
  intro hd
  have hperm := (Inv_run sched init Inv_init).perm
  rw [hd, List.append_nil] at hperm
  rw [← h0]
  exact (hperm.mem_iff).symm

/-! ## The theorems at concrete schedules -/

theorem cap_invariant_witness :
    (workers [Action.worker 2, Action.consumer 0, Action.worker 0, Action.worker 3,
      Action.consumer 1, Action.worker 1]).Perm [0, 1, 2, 3] ∧
    (run init [Action.worker 2, Action.consumer 0, Action.worker 0, Action.worker 3,
      Action.consumer 1, Action.worker 1]).MAX_production = 8 :=
  ⟨by decide,
    (cap_invariant [0, 1, 2, 3]
      [Action.worker 2, Action.consumer 0, Action.worker 0, Action.worker 3,
        Action.consumer 1, Action.worker 1] (by decide)).2.2 rfl⟩

theorem exit_never_strands_witness :
    (consumer_iteration (run init ([Action.worker 3, Action.worker 2, Action.worker 1]
      ++ List.replicate 8 (Action.consumer 0)))).1 = Outcome.exited ∧
    (run (run init ([Action.worker 3, Action.worker 2, Action.worker 1]
      ++ List.replicate 8 (Action.consumer 0)))
        [Action.worker 0, Action.consumer 1]).data_vector = [] :=
  ⟨by decide,
    (exit_never_strands
      ([Action.worker 3, Action.worker 2, Action.worker 1]
        ++ List.replicate 8 (Action.consumer 0))
      [Action.worker 0, Action.consumer 1] (by decide)).2.2.1⟩

theorem lifo_pop_witness :
    (push_item 7 (push_item 5 init)).data_vector ≠ [] ∧
    (consumer_iteration (push_item 7 (push_item 5 init))).1 = Outcome.popped 7 :=
  ⟨by decide, (lifo_pop (push_item 7 (push_item 5 init)) (by decide)).1⟩

theorem no_denial_below_cap_witness :
    quota_sum [0, 2, 3] ≤ 8 ∧
    (run init [Action.worker 3, Action.consumer 0, Action.worker 0, Action.worker 2,
      Action.consumer 1]).production_stopped = false :=
  ⟨by decide,
    (no_denial_below_cap [0, 2, 3]
      [Action.worker 3, Action.consumer 0, Action.worker 0, Action.worker 2,
        Action.consumer 1] (by decide) (List.Perm.subperm (by decide))).1⟩

theorem default_produced_set_witness :
    (workers [Action.worker 1, Action.worker 3, Action.consumer 2, Action.worker 0,
      Action.worker 2]).Perm [0, 1, 2, 3] ∧
    (run init [Action.worker 1, Action.worker 3, Action.consumer 2, Action.worker 0,
      Action.worker 2]).produced.length = 8 :=
  ⟨by decide,
    (default_produced_set
      [Action.worker 1, Action.worker 3, Action.consumer 2, Action.worker 0,
        Action.worker 2] (by decide)).1⟩

theorem zero_produced_iff_witness :
    (workers [Action.worker 1, Action.worker 0, Action.worker 3, Action.worker 2]).Perm
      [0, 1, 2, 3] ∧
    0 ∈ (run init [Action.worker 1, Action.worker 0, Action.worker 3,
      Action.worker 2]).produced :=
  ⟨by decide,
    (zero_produced_iff
      [Action.worker 1, Action.worker 0, Action.worker 3, Action.worker 2]
      (by decide)).1.mpr (by decide)⟩

theorem consumers_terminate_witness :
    (workers [Action.worker 0, Action.worker 1, Action.worker 2, Action.worker 3]).Perm
      [0, 1, 2, 3] ∧
    (∀ j, j < number_of_consumers → j ∈
      ((consumer_run
        { shared := run init [Action.worker 0, Action.worker 1, Action.worker 2,
            Action.worker 3], done := [] }
        [0, 1, 2, 0, 1, 2, 0, 1, 2, 0, 1]).getD { shared := init, done := [] }).done) :=
  ⟨by decide,
    ((consumers_terminate
      [Action.worker 0, Action.worker 1, Action.worker 2, Action.worker 3]
      (by decide)).2 number_of_consumers [] [0, 1, 2, 0, 1, 2, 0, 1, 2, 0, 1] _ (by decide)
      (by decide)).2.2.2.2.1 (by decide)⟩

end MT
